import Mathlib

/-!
# Verification of the bill-splitting core (`src/core.ts`)

Shallow embedding of the TypeScript bill-splitting module. JavaScript
numbers are modelled as rationals (`ℚ`); `Math.round` is modelled as
round-half-up (`⌊x + 1/2⌋`, the ECMAScript semantics on reals).
JavaScript strings are modelled as `String` backed by `List Char`.
Code that can throw at runtime (the reconciliation step writes to
`items[0]` which is `undefined` when the person list is empty) is
embedded with `Option`, `none` standing for a thrown `TypeError`.
-/

namespace BillSplit

/-- Model of `Math.round` on reals: round half toward positive infinity. -/
def jsRound (q : ℚ) : ℤ := ⌊q + 1/2⌋

/-- Model of `Math.round(q * 10) / 10`: the one-decimal rounding used throughout the source. -/
def round1 (q : ℚ) : ℚ := (jsRound (q * 10) : ℚ) / 10

/-- Type `BillItem = SharedBillItem | PersonalBillItem`, the tagged union of the source. -/
inductive BillItem
  | shared (price : ℚ) (name : String)
  | personal (price : ℚ) (name : String) (person : String)
deriving Repr, DecidableEq

/-- Field `price`, common to both variants. -/
def BillItem.price : BillItem → ℚ
  | .shared p _ => p
  | .personal p _ _ => p

/-- The `isShared` discriminator field. -/
def BillItem.isShared : BillItem → Bool
  | .shared _ _ => true
  | .personal _ _ _ => false

/-- Field `person` of a personal item, `none` on a shared item. -/
def BillItem.personOf : BillItem → Option String
  | .shared _ _ => none
  | .personal _ _ p => some p

/-- Input record type `BillInput`. -/
structure BillInput where
  date : String
  location : String
  tipPercentage : ℚ
  items : List BillItem
deriving Repr, DecidableEq

/-- Output element type `PersonItem`. -/
structure PersonItem where
  name : String
  amount : ℚ
deriving Repr, DecidableEq

/-- Output record type `BillOutput`. -/
structure BillOutput where
  date : String
  location : String
  subTotal : ℚ
  tip : ℚ
  totalAmount : ℚ
  items : List PersonItem
deriving Repr, DecidableEq

/-- Source `calculateSubTotal`: `items.reduce((s, it) => s + it.price, 0)`. -/
def calculateSubTotal (items : List BillItem) : ℚ :=
  items.foldl (fun s it => s + it.price) 0

/-- Source `calculateTip`: `Math.round(subTotal * tipPercentage / 100 * 10) / 10`. -/
def calculateTip (subTotal tipPercentage : ℚ) : ℚ :=
  round1 (subTotal * tipPercentage / 100)

/-- One step of the `scanPersons` loop: a JS `Set<string>` keeps insertion
order, modelled as a duplicate-free list extended at the tail. -/
def scanStep (acc : List String) (it : BillItem) : List String :=
  match it with
  | .shared _ _ => acc
  | .personal _ _ p => if p ∈ acc then acc else acc ++ [p]

/-- Source `scanPersons`: collect the `person` of every non-shared item into a
`Set`, then `Array.from` it (insertion order, i.e. first appearance). -/
def scanPersons (items : List BillItem) : List String :=
  items.foldl scanStep []

/-- One step of the accumulation loop in `calculatePersonAmount`: the two
mutable variables `personal` and `sharedTotal` as a pair. -/
def personAmountStep (name : String) (acc : ℚ × ℚ) (it : BillItem) : ℚ × ℚ :=
  match it with
  | .shared price _ => (acc.1, acc.2 + price)
  | .personal price _ person =>
      if person = name then (acc.1 + price, acc.2) else acc

/-- Source `calculatePersonAmount`. In the source, `share = sharedTotal / persons`
divides by zero when `persons = 0` (yielding `Infinity`); in `ℚ` division
by zero yields `0`. The pipeline never calls this function with
`persons = 0` (the map over an empty name list is empty), so the
divergence is unreachable from `splitBill`. -/
def calculatePersonAmount (items : List BillItem) (tipPercentage : ℚ)
    (name : String) (persons : ℕ) : ℚ :=
  let acc := items.foldl (personAmountStep name) (0, 0)
  let personal := acc.1
  let sharedTotal := acc.2
  let share := sharedTotal / (persons : ℚ)
  let subTotalForPerson := personal + share
  let totalSub := calculateSubTotal items
  let totalTip := calculateTip totalSub tipPercentage
  let personTip := if totalSub = 0 then 0 else totalTip * (subTotalForPerson / totalSub)
  let personTotalRaw := subTotalForPerson + personTip
  round1 personTotalRaw

/-- Source `calculateItems`: one `PersonItem` per scanned name, in order. -/
def calculateItems (items : List BillItem) (tipPercentage : ℚ) : List PersonItem :=
  let names := scanPersons items
  let persons := names.length
  names.map (fun name => ⟨name, calculatePersonAmount items tipPercentage name persons⟩)

/-- JavaScript `str.split(sep)` for a single-character separator, on the
character-list model of strings: `"".split(sep)` is `[""]`, adjacent
separators produce empty chunks, the result is always non-empty. -/
def splitOnChar (sep : Char) : List Char → List (List Char)
  | [] => [[]]
  | c :: cs =>
    match splitOnChar sep cs with
    | [] => [[]]
    | chunk :: rest =>
        if c = sep then [] :: chunk :: rest else (c :: chunk) :: rest

/-- Fuel-driven digit expansion, structurally recursive so that concrete
dates evaluate inside the kernel.  With fuel above `n` it renders the
decimal digits of `n`, most significant first. -/
def renderNatAux : ℕ → ℕ → List Char
  | 0, _ => []
  | fuel + 1, n =>
    if n < 10 then [Char.ofNat (48 + n)]
    else renderNatAux fuel (n / 10) ++ [Char.ofNat (48 + n % 10)]

/-- Decimal digits of a natural number, most significant first
(the rendering JavaScript `String(n)` uses for integral numbers). -/
def renderNat (n : ℕ) : List Char := renderNatAux (n + 1) n

/-- Is `c` a decimal digit `0`–`9`? -/
def isDigitChar (c : Char) : Bool := 48 ≤ c.toNat && c.toNat ≤ 57

/-- Value of a non-empty all-digit character list; `none` otherwise. -/
def parseDigits (cs : List Char) : Option ℕ :=
  if cs ≠ [] ∧ cs.all isDigitChar then
    some (cs.foldl (fun a c => 10 * a + (c.toNat - 48)) 0)
  else none

/-- Modelled fragment of the ECMAScript `Number()` coercion applied to a
split chunk (`none` argument = `undefined`, which coerces to NaN; `none`
result = NaN). The fragment covers exactly what `formatDate` feeds it in
the verified properties: the empty string (which coerces to `0`), an
optional sign followed by decimal digits, and everything clearly
non-numeric mapping to NaN. Other ECMAScript numeric literal forms
(fractions, exponents, hex, `Infinity`, surrounding whitespace) are
outside the fragment and also mapped to NaN here. -/
def jsStringToNumber : Option (List Char) → Option ℤ
  | none => none
  | some [] => some 0
  | some (c :: cs) =>
    if c = '-' then (parseDigits cs).map (fun n => -(n : ℤ))
    else if c = '+' then (parseDigits cs).map (fun n => (n : ℤ))
    else (parseDigits (c :: cs)).map (fun n => (n : ℤ))

/-- JavaScript `String(x)` on the modelled number domain: NaN renders as
the literal text `"NaN"`, integral values render in decimal. -/
def jsNumberToString : Option ℤ → List Char
  | none => "NaN".toList
  | some n => if n < 0 then '-' :: renderNat n.natAbs else renderNat n.toNat

/-- Source `formatDate`: split on `-`, destructure into `[y, m, d]` (missing
parts are `undefined`), coerce month and day through `Number` and render
`y年m月d日`. `y` is interpolated as the raw string (the first chunk of a
split is always present). -/
def formatDate (date : String) : String :=
  let parts := splitOnChar '-' date.toList
  let y := (parts[0]?).getD []
  let m := jsNumberToString (jsStringToNumber parts[1]?)
  let d := jsNumberToString (jsStringToNumber parts[2]?)
  String.mk (y ++ "年".toList ++ m ++ "月".toList ++ d ++ "日".toList)

/-- Source `adjustAmount`. The source mutates `items[0].amount` in place; when
`items` is empty and the diff test fails, `items[0]` is `undefined` and the
assignment throws a `TypeError`, modelled as `none`. -/
def adjustAmount (totalAmount : ℚ) (items : List PersonItem) :
    Option (List PersonItem) :=
  let sum := round1 (items.foldl (fun s it => s + it.amount) 0)
  let target := round1 totalAmount
  let diff := round1 (target - sum)
  if |diff| < 1/10000 then some items
  else
    match items with
    | [] => none
    | first :: rest => some ({ first with amount := round1 (first.amount + diff) } :: rest)

/-- Source `splitBill`, the primary entry point. `none` models a thrown exception
(only possible inside `adjustAmount`). -/
def splitBill (input : BillInput) : Option BillOutput :=
  let subTotal := calculateSubTotal input.items
  let tip := calculateTip subTotal input.tipPercentage
  let totalAmount := subTotal + tip
  let items := calculateItems input.items input.tipPercentage
  match adjustAmount totalAmount items with
  | none => none
  | some adjusted =>
      some { date := formatDate input.date
             location := input.location
             subTotal := subTotal
             tip := tip
             totalAmount := totalAmount
             items := adjusted }

/-! ## Spec-side definitions

These follow the wording of the specification (not the source) and are
compared with the source-derived definitions in refinement theorems. -/

/-- Written from the spec's words: deduplicate a list of names keeping the
first appearance of each, in first-appearance order. -/
def firstDedup : List String → List String
  | [] => []
  | x :: xs => x :: firstDedup (xs.filter (fun y => y ≠ x))
termination_by l => l.length
decreasing_by simpa using Nat.lt_succ_of_le (xs.length_filter_le _)

/-- Written from the spec's words: a participant's pre-reconciliation
amount is `round((personal + sharedTotal/participantCount + personTip) * 10) / 10`,
`personal` the sum of the person's Personal prices, `sharedTotal` the sum
of all Shared prices, `participantCount` the number of distinct resolved
participants, and `personTip = totalTip * ((personal + share) / totalSub)`
(`0` when `totalSub` is exactly `0`). -/
def specPersonAmount (items : List BillItem) (tipPercentage : ℚ) (name : String) : ℚ :=
  let personal := ((items.filter (fun it => it.personOf = some name)).map BillItem.price).sum
  let sharedTotal := ((items.filter (fun it => it.isShared)).map BillItem.price).sum
  let participantCount := (firstDedup (items.filterMap BillItem.personOf)).length
  let share := sharedTotal / (participantCount : ℚ)
  let totalSub := (items.map BillItem.price).sum
  let totalTip := calculateTip totalSub tipPercentage
  let personTip := if totalSub = 0 then 0 else totalTip * ((personal + share) / totalSub)
  round1 (personal + share + personTip)

/-- Zero-pad a number to (at least) two digits, as in the `MM`/`DD` fields
of an ISO date. -/
def pad2 (n : ℕ) : List Char := if n < 10 then '0' :: renderNat n else renderNat n

/-- The zero-padded `YYYY-MM-DD` rendering of a calendar date. -/
def mkDateString (y m d : ℕ) : String :=
  String.mk (renderNat y ++ '-' :: pad2 m ++ '-' :: pad2 d)

/-- Predicate: `q` is an integer multiple of one tenth (the granularity every rounded
amount in the program has). -/
def IsTenth (q : ℚ) : Prop := ∃ z : ℤ, q = (z : ℚ) / 10

/-- A valid `BillInput` whose items are all shared: one 100-unit pizza at
10% tip, no personal items. -/
def allSharedInput : BillInput :=
  { date := "2024-03-21", location := "The Diner", tipPercentage := 10,
    items := [.shared 100 "Pizza"] }

/-- The two-person scenario of the spec: one shared pizza, a personal coke
for Alice and a personal coffee for Bob, 10% tip. -/
def twoPersonInput : BillInput :=
  { date := "2024-03-21", location := "The Diner", tipPercentage := 10,
    items := [.shared 100 "Pizza", .personal 10 "Coke" "Alice", .personal 5 "Coffee" "Bob"] }

/-- The output `splitBill` produces on `twoPersonInput`. -/
def twoPersonOutput : BillOutput :=
  { date := "2024年3月21日", location := "The Diner", subTotal := 115,
    tip := 23/2, totalAmount := 253/2,
    items := [⟨"Alice", 66⟩, ⟨"Bob", 121/2⟩] }

end BillSplit

/-! ## Rounding infrastructure -/

namespace BillSplit

/-- Rounding an integer gives it back. -/
theorem jsRound_intCast (z : ℤ) : jsRound (z : ℚ) = z := by
  rw [jsRound, Int.floor_int_add]
  norm_num

/-- Monotonicity of `jsRound`. -/
theorem jsRound_mono {a b : ℚ} (h : a ≤ b) : jsRound a ≤ jsRound b :=
  Int.floor_mono (add_le_add_right h _)

/-- Monotonicity of `round1`. -/
theorem round1_mono {a b : ℚ} (h : a ≤ b) : round1 a ≤ round1 b := by
  have := jsRound_mono (mul_le_mul_of_nonneg_right h (by norm_num : (0:ℚ) ≤ 10))
  exact (div_le_div_iff_of_pos_right (by norm_num : (0:ℚ) < 10)).mpr (by exact_mod_cast this)

/-- Every rounded value is a multiple of one tenth. -/
theorem round1_isTenth (q : ℚ) : IsTenth (round1 q) := ⟨jsRound (q * 10), rfl⟩

theorem IsTenth.zero : IsTenth 0 := ⟨0, by norm_num⟩

theorem IsTenth.add {a b : ℚ} (ha : IsTenth a) (hb : IsTenth b) : IsTenth (a + b) := by
  obtain ⟨x, rfl⟩ := ha
  obtain ⟨y, rfl⟩ := hb
  exact ⟨x + y, by push_cast; ring⟩

theorem IsTenth.sub {a b : ℚ} (ha : IsTenth a) (hb : IsTenth b) : IsTenth (a - b) := by
  obtain ⟨x, rfl⟩ := ha
  obtain ⟨y, rfl⟩ := hb
  exact ⟨x - y, by push_cast; ring⟩

/-- Rounding is the identity on multiples of one tenth. -/
theorem IsTenth.round1_eq {q : ℚ} (h : IsTenth q) : round1 q = q := by
  obtain ⟨z, rfl⟩ := h
  rw [round1, div_mul_cancel₀ _ (by norm_num : (10:ℚ) ≠ 0), jsRound_intCast]

/-- A multiple of one tenth below the `0.0001` tolerance is zero. -/
theorem IsTenth.eq_zero_of_abs_lt {q : ℚ} (h : IsTenth q) (h2 : |q| < 1/10000) : q = 0 := by
  obtain ⟨z, rfl⟩ := h
  rcases eq_or_ne z 0 with rfl | hz
  · norm_num
  · exfalso
    have h1 : (1 : ℚ) ≤ |(z : ℚ)| := by exact_mod_cast Int.one_le_abs hz
    rw [abs_div, show |(10:ℚ)| = 10 by norm_num] at h2
    linarith

/-- Folding the sum of `f` over a list from `a`. -/
theorem foldl_add_map {α : Type} (f : α → ℚ) :
    ∀ (l : List α) (a : ℚ), l.foldl (fun s x => s + f x) a = a + (l.map f).sum
  | [], a => by simp
  | x :: xs, a => by
    rw [List.foldl_cons, foldl_add_map f xs (a + f x)]
    simp [add_assoc]

/-- A sum of multiples of one tenth is a multiple of one tenth. -/
theorem IsTenth.sum : ∀ (l : List ℚ), (∀ q ∈ l, IsTenth q) → IsTenth l.sum
  | [], _ => by simpa using IsTenth.zero
  | x :: xs, h => by
    rw [List.sum_cons]
    exact (h x (by simp)).add (IsTenth.sum xs fun q hq => h q (by simp [hq]))

/-! ## Reconciliation lemmas -/

/-- Reconciliation succeeds on a non-empty person list. -/
theorem adjustAmount_isSome {t : ℚ} {items : List PersonItem} (h : items ≠ []) :
    (adjustAmount t items).isSome := by
  simp only [adjustAmount]
  split
  · rfl
  · match items, h with
    | first :: rest, _ => rfl

/-- Reconciliation preserves the name sequence. -/
theorem adjustAmount_names {t : ℚ} {items items' : List PersonItem}
    (h : adjustAmount t items = some items') :
    items'.map PersonItem.name = items.map PersonItem.name := by
  simp only [adjustAmount] at h
  split at h
  · cases h
    rfl
  · split at h
    · cases h
    · cases h
      rfl

/-- Reconciliation leaves every entry after the first untouched. -/
theorem adjustAmount_tail {t : ℚ} {items items' : List PersonItem}
    (h : adjustAmount t items = some items') :
    ∀ i, 1 ≤ i → items'[i]? = items[i]? := by
  simp only [adjustAmount] at h
  split at h
  · cases h
    intro i _
    rfl
  · split at h
    · cases h
    · cases h
      intro i hi
      match i, hi with
      | j + 1, _ => simp

/-- When the rounded difference is inside the tolerance, reconciliation is
the identity. -/
theorem adjustAmount_of_small {t : ℚ} {items items' : List PersonItem}
    (h : adjustAmount t items = some items')
    (hsmall : |round1 (round1 t - round1 (items.foldl (fun s it => s + it.amount) 0))| < 1/10000) :
    items' = items := by
  simp only [adjustAmount] at h
  rw [if_pos hsmall] at h
  cases h
  rfl

/-- After a successful reconciliation of amounts that are all multiples of
one tenth, the rounded sum of the amounts is the rounded total. -/
theorem adjustAmount_sum {t : ℚ} {items items' : List PersonItem}
    (hT : ∀ q ∈ items.map PersonItem.amount, IsTenth q)
    (h : adjustAmount t items = some items') :
    round1 ((items'.map PersonItem.amount).sum) = round1 t := by
  have hfold : items.foldl (fun s it => s + it.amount) 0
      = (items.map PersonItem.amount).sum := by
    simpa using foldl_add_map PersonItem.amount items 0
  have hS : IsTenth ((items.map PersonItem.amount).sum) := IsTenth.sum _ hT
  have htar : IsTenth (round1 t) := round1_isTenth t
  have hdz : round1 (round1 t - (items.map PersonItem.amount).sum)
      = round1 t - (items.map PersonItem.amount).sum := (htar.sub hS).round1_eq
  simp only [adjustAmount, hfold, hS.round1_eq, hdz] at h
  by_cases hsmall : |round1 t - (items.map PersonItem.amount).sum| < 1/10000
  · rw [if_pos hsmall] at h
    have hdiff : round1 t - (items.map PersonItem.amount).sum = 0 :=
      (htar.sub hS).eq_zero_of_abs_lt hsmall
    cases h
    rw [hS.round1_eq]
    linarith
  · rw [if_neg hsmall] at h
    match items, hT, hS, h with
    | first :: rest, hT, hS, h =>
      cases h
      have h0 : IsTenth first.amount := hT _ (by simp)
      have hrest : IsTenth ((rest.map PersonItem.amount).sum) :=
        IsTenth.sum _ fun q hq => hT q (by simp [hq])
      simp only [List.map_cons, List.sum_cons] at hS ⊢
      have hd : IsTenth (round1 t - (first.amount + (rest.map PersonItem.amount).sum)) :=
        htar.sub (h0.add hrest)
      rw [(h0.add hd).round1_eq]
      have : first.amount + (round1 t - (first.amount + (rest.map PersonItem.amount).sum))
          + (rest.map PersonItem.amount).sum = round1 t := by ring
      rw [this, htar.round1_eq]

/-- Definitional shape of `splitBill`. -/
theorem splitBill_eq (input : BillInput) :
    splitBill input
      = match adjustAmount
            (calculateSubTotal input.items
              + calculateTip (calculateSubTotal input.items) input.tipPercentage)
            (calculateItems input.items input.tipPercentage) with
        | none => none
        | some adjusted =>
            some { date := formatDate input.date, location := input.location,
                   subTotal := calculateSubTotal input.items,
                   tip := calculateTip (calculateSubTotal input.items) input.tipPercentage,
                   totalAmount := calculateSubTotal input.items
                     + calculateTip (calculateSubTotal input.items) input.tipPercentage,
                   items := adjusted } := rfl

/-- Inversion of a successful `splitBill` run. -/
theorem splitBill_some_inv {input : BillInput} {out : BillOutput}
    (h : splitBill input = some out) :
    adjustAmount
        (calculateSubTotal input.items
          + calculateTip (calculateSubTotal input.items) input.tipPercentage)
        (calculateItems input.items input.tipPercentage) = some out.items
      ∧ out.totalAmount
          = calculateSubTotal input.items
            + calculateTip (calculateSubTotal input.items) input.tipPercentage := by
  rw [splitBill_eq] at h
  cases heq : adjustAmount
      (calculateSubTotal input.items
        + calculateTip (calculateSubTotal input.items) input.tipPercentage)
      (calculateItems input.items input.tipPercentage) with
  | none =>
      rw [heq] at h
      cases h
  | some adjusted =>
      rw [heq] at h
      cases h
      exact ⟨rfl, rfl⟩

/-- Every amount produced by the allocator is a multiple of one tenth. -/
theorem calculatePersonAmount_isTenth (items : List BillItem) (tp : ℚ)
    (name : String) (persons : ℕ) :
    IsTenth (calculatePersonAmount items tp name persons) := by
  simp only [calculatePersonAmount]
  exact round1_isTenth _

/-- The allocator output, element by element. -/
theorem mem_calculateItems {items : List BillItem} {tp : ℚ} {pi : PersonItem}
    (h : pi ∈ calculateItems items tp) :
    pi.name ∈ scanPersons items
      ∧ pi.amount = calculatePersonAmount items tp pi.name (scanPersons items).length := by
  simp only [calculateItems, List.mem_map] at h
  obtain ⟨name, hname, rfl⟩ := h
  exact ⟨hname, rfl⟩

/-- The allocator emits exactly the scanned names, in order. -/
theorem calculateItems_names (items : List BillItem) (tp : ℚ) :
    (calculateItems items tp).map PersonItem.name = scanPersons items := by
  simp only [calculateItems, List.map_map]
  exact List.map_id _

/-! ## Participant-scan lemmas -/

/-- Membership in the scan loop's accumulator. -/
theorem foldl_scanStep_mem :
    ∀ (items : List BillItem) (acc : List String) (x : String),
      x ∈ items.foldl scanStep acc ↔ x ∈ acc ∨ x ∈ items.filterMap BillItem.personOf
  | [], acc, x => by simp
  | it :: items, acc, x => by
    rw [List.foldl_cons, foldl_scanStep_mem items (scanStep acc it) x]
    cases it with
    | shared p n => simp [scanStep, BillItem.personOf]
    | personal p n q =>
      by_cases hq : q ∈ acc
      · simp only [scanStep, if_pos hq, List.filterMap_cons, BillItem.personOf,
          List.mem_cons]
        constructor
        · rintro (h | h)
          exacts [Or.inl h, Or.inr (Or.inr h)]
        · rintro (h | rfl | h)
          exacts [Or.inl h, Or.inl hq, Or.inr h]
      · simp only [scanStep, if_neg hq, List.filterMap_cons, BillItem.personOf,
          List.mem_append, List.mem_cons, List.mem_singleton, List.not_mem_nil]
        tauto

/-- A name is scanned exactly when some personal item carries it. -/
theorem mem_scanPersons (items : List BillItem) (x : String) :
    x ∈ scanPersons items ↔ ∃ it ∈ items, it.personOf = some x := by
  rw [scanPersons, foldl_scanStep_mem]
  simp [List.mem_filterMap]

/-- Membership: `firstDedup` keeps exactly the members of its argument. -/
theorem mem_firstDedup : ∀ (l : List String) (y : String), y ∈ firstDedup l ↔ y ∈ l
  | [], y => by simp [firstDedup]
  | x :: xs, y => by
    have ih := mem_firstDedup (xs.filter (fun z => z ≠ x)) y
    rw [firstDedup]
    simp only [List.mem_cons, ih, List.mem_filter, decide_eq_true_eq]
    by_cases hyx : y = x
    · simp [hyx]
    · simp [hyx]
termination_by l => l.length
decreasing_by simpa using Nat.lt_succ_of_le (List.length_filter_le _ _)

/-- Deduplication: `firstDedup` produces no duplicates. -/
theorem firstDedup_nodup : ∀ (l : List String), (firstDedup l).Nodup
  | [] => by simp [firstDedup]
  | x :: xs => by
    rw [firstDedup]
    refine List.nodup_cons.mpr ⟨fun hx => ?_, firstDedup_nodup _⟩
    have := (mem_firstDedup _ _).mp hx
    simp [List.mem_filter] at this
termination_by l => l.length
decreasing_by simpa using Nat.lt_succ_of_le (List.length_filter_le _ _)

/-- The scan loop from a general accumulator, in closed form: the
accumulator followed by the first-appearance deduplication of the names
not already present. -/
theorem foldl_scanStep_eq :
    ∀ (items : List BillItem) (acc : List String),
      items.foldl scanStep acc
        = acc ++ firstDedup ((items.filterMap BillItem.personOf).filter
            (fun x => decide (x ∉ acc)))
  | [], acc => by simp [firstDedup]
  | it :: items, acc => by
    rw [List.foldl_cons]
    cases it with
    | shared p n =>
      rw [show scanStep acc (BillItem.shared p n) = acc from rfl,
        foldl_scanStep_eq items acc]
      simp [BillItem.personOf]
    | personal p n q =>
      by_cases hq : q ∈ acc
      · rw [show scanStep acc (BillItem.personal p n q) = acc from by
          simp [scanStep, hq], foldl_scanStep_eq items acc]
        simp [BillItem.personOf, List.filter_cons, hq]
      · rw [show scanStep acc (BillItem.personal p n q) = acc ++ [q] from by
          simp [scanStep, hq], foldl_scanStep_eq items (acc ++ [q])]
        have hpred : ∀ a ∈ items.filterMap BillItem.personOf,
            (decide (a ∉ acc ++ [q])) = (decide (a ≠ q) && decide (a ∉ acc)) := by
          intro a _
          by_cases h1 : a = q <;> by_cases h2 : a ∈ acc <;> simp [h1, h2]
        rw [List.filter_congr hpred, ← List.filter_filter]
        simp only [List.filterMap_cons, BillItem.personOf, List.filter_cons,
          decide_not, hq, decide_False, Bool.not_false, if_pos]
        rw [firstDedup, List.append_assoc, List.singleton_append]
        simp [hq]

/-- The Participant Resolver equals the spec-side first-appearance
deduplication of the personal items' names. -/
theorem scanPersons_eq (items : List BillItem) :
    scanPersons items = firstDedup (items.filterMap BillItem.personOf) := by
  rw [scanPersons, foldl_scanStep_eq]
  rw [List.nil_append, List.filter_eq_self.mpr (by simp)]

/-! ## Per-person allocation lemmas -/

/-- The allocator's single accumulation loop computes the personal and
shared price sums. -/
theorem foldl_personAmountStep (name : String) :
    ∀ (items : List BillItem) (a b : ℚ),
      items.foldl (personAmountStep name) (a, b)
        = (a + ((items.filter (fun it => it.personOf = some name)).map BillItem.price).sum,
           b + ((items.filter (fun it => it.isShared)).map BillItem.price).sum)
  | [], a, b => by simp
  | it :: items, a, b => by
    rw [List.foldl_cons]
    cases it with
    | shared p n =>
      rw [show personAmountStep name (a, b) (BillItem.shared p n) = (a, b + p) from rfl,
        foldl_personAmountStep name items a (b + p)]
      simp only [Prod.mk.injEq]
      refine ⟨?_, ?_⟩ <;> simp [List.filter_cons, BillItem.personOf, BillItem.isShared,
        BillItem.price] <;> try ring
    | personal p n q =>
      by_cases hq : q = name
      · rw [show personAmountStep name (a, b) (BillItem.personal p n q) = (a + p, b) from by
          simp [personAmountStep, hq], foldl_personAmountStep name items (a + p) b]
        simp only [Prod.mk.injEq]
        refine ⟨?_, ?_⟩ <;> simp [List.filter_cons, BillItem.personOf, BillItem.isShared,
          BillItem.price, hq] <;> try ring
      · rw [show personAmountStep name (a, b) (BillItem.personal p n q) = (a, b) from by
          simp [personAmountStep, hq], foldl_personAmountStep name items a b]
        simp only [Prod.mk.injEq]
        refine ⟨?_, ?_⟩ <;> simp [List.filter_cons, BillItem.personOf, BillItem.isShared,
          BillItem.price, hq]

/-- The Aggregator is the plain sum of prices. -/
theorem calculateSubTotal_eq (items : List BillItem) :
    calculateSubTotal items = (items.map BillItem.price).sum := by
  rw [calculateSubTotal]
  simpa using foldl_add_map BillItem.price items 0

/-- Called with the resolved participant count, the source allocator
agrees with the spec-side formula. -/
theorem calculatePersonAmount_eq_spec (items : List BillItem) (tp : ℚ) (name : String) :
    calculatePersonAmount items tp name (scanPersons items).length
      = specPersonAmount items tp name := by
  simp only [calculatePersonAmount, specPersonAmount,
    foldl_personAmountStep name items 0 0, calculateSubTotal_eq, scanPersons_eq,
    zero_add]

end BillSplit

/-! ## Concrete evaluations used by the witnesses -/

namespace BillSplit

/-- The allocator's output on the two-person scenario. -/
theorem calculateItems_twoPerson_eval :
    calculateItems twoPersonInput.items twoPersonInput.tipPercentage
      = [⟨"Alice", 66⟩, ⟨"Bob", 121/2⟩] := by
  simp [calculateItems, scanPersons, scanStep, twoPersonInput, calculatePersonAmount,
    personAmountStep, calculateSubTotal, calculateTip, BillItem.price]
  norm_num [round1, jsRound]

/-- Evaluation of `splitBill` on the two-person scenario. -/
theorem splitBill_twoPerson_eval : splitBill twoPersonInput = some twoPersonOutput := by
  rw [splitBill_eq]
  have hsub : calculateSubTotal twoPersonInput.items = 115 := by
    simp [calculateSubTotal, twoPersonInput, BillItem.price]
    norm_num
  have htip : calculateTip 115 twoPersonInput.tipPercentage = 23/2 := by
    norm_num [calculateTip, twoPersonInput, round1, jsRound]
  rw [calculateItems_twoPerson_eval, hsub, htip]
  have hadj : adjustAmount (115 + 23/2) [⟨"Alice", 66⟩, ⟨"Bob", 121/2⟩]
      = some [⟨"Alice", 66⟩, ⟨"Bob", 121/2⟩] := by
    norm_num [adjustAmount, round1, jsRound]
  rw [hadj]
  simp only [twoPersonOutput, twoPersonInput, Option.some.injEq, BillOutput.mk.injEq]
  norm_num
  rfl

/-- A one-element reconciliation where the whole difference lands on the
single entry. -/
theorem adjustAmount_single_eval :
    adjustAmount 10 [⟨"A", 5⟩] = some [⟨"A", 10⟩] := by
  norm_num [adjustAmount, round1, jsRound]

end BillSplit

/-! ## Claim theorems -/

namespace BillSplit

/-- C1. For every valid `BillInput` (non-empty item list, non-negative
prices and tip percentage), after `splitBill` returns, the sum of all
`output.items[i].amount` rounded to one decimal equals
`output.totalAmount` rounded to one decimal. -/
theorem claim1_round_trip_total (input : BillInput) (out : BillOutput)
    (hne : input.items ≠ [])
    (hprices : ∀ it ∈ input.items, 0 ≤ it.price)
    (htip : 0 ≤ input.tipPercentage)
    (hrun : splitBill input = some out) :
    round1 ((out.items.map PersonItem.amount).sum) = round1 out.totalAmount := by
  obtain ⟨hadj, htot⟩ := splitBill_some_inv hrun
  have hT : ∀ q ∈ (calculateItems input.items input.tipPercentage).map PersonItem.amount,
      IsTenth q := by
    intro q hq
    simp only [List.mem_map] at hq
    obtain ⟨pi, hpi, rfl⟩ := hq
    rw [(mem_calculateItems hpi).2]
    exact calculatePersonAmount_isTenth _ _ _ _
  rw [htot]
  exact adjustAmount_sum hT hadj

/-- Witness for C1 at the two-person scenario. -/
theorem claim1_round_trip_total_witness :
    twoPersonInput.items ≠ []
      ∧ (∀ it ∈ twoPersonInput.items, 0 ≤ it.price)
      ∧ 0 ≤ twoPersonInput.tipPercentage
      ∧ splitBill twoPersonInput = some twoPersonOutput
      ∧ round1 ((twoPersonOutput.items.map PersonItem.amount).sum)
          = round1 twoPersonOutput.totalAmount :=
  ⟨by simp [twoPersonInput], by norm_num [twoPersonInput, BillItem.price],
    by norm_num [twoPersonInput], splitBill_twoPerson_eval,
    claim1_round_trip_total twoPersonInput twoPersonOutput
      (by simp [twoPersonInput]) (by norm_num [twoPersonInput, BillItem.price])
      (by norm_num [twoPersonInput]) splitBill_twoPerson_eval⟩

end BillSplit

namespace BillSplit

/-- C2 counterexample. On the valid all-shared input (non-empty items,
non-negative prices and tip), `splitBill` does throw: the reconciliation
step assigns to `items[0].amount` with `items` empty, a `TypeError`,
modelled as `none`. -/
theorem claim2_never_throws_counterexample : splitBill allSharedInput = none := by
  rw [splitBill_eq]
  norm_num [allSharedInput, calculateSubTotal, calculateTip, calculateItems, scanPersons,
    scanStep, adjustAmount, round1, jsRound, BillItem.price]

/-- C2 as amended. For every `BillInput` with at least one Personal item,
`splitBill` returns a `BillOutput` value and never throws; degenerate
conditions (for example malformed date strings) surface only as abnormal
values inside the returned record. -/
theorem claim2_amended_no_throw (input : BillInput)
    (h : ∃ it ∈ input.items, it.isShared = false) :
    ∃ out : BillOutput, splitBill input = some out := by
  obtain ⟨it, hmem, hpers⟩ := h
  obtain ⟨p, hp⟩ : ∃ p, it.personOf = some p := by
    cases it with
    | shared _ _ => simp [BillItem.isShared] at hpers
    | personal _ _ q => exact ⟨q, rfl⟩
  have hscan : p ∈ scanPersons input.items :=
    (mem_scanPersons input.items p).mpr ⟨it, hmem, hp⟩
  have hne : calculateItems input.items input.tipPercentage ≠ [] := by
    intro hnil
    have : scanPersons input.items = [] := by
      have := congrArg (List.map PersonItem.name) hnil
      rwa [calculateItems_names] at this
    rw [this] at hscan
    exact List.not_mem_nil _ hscan
  obtain ⟨l, hl⟩ := Option.isSome_iff_exists.mp
    (adjustAmount_isSome
      (t := calculateSubTotal input.items
        + calculateTip (calculateSubTotal input.items) input.tipPercentage) hne)
  rw [splitBill_eq, hl]
  exact ⟨_, rfl⟩

/-- Witness for the amended C2 at the two-person scenario. -/
theorem claim2_amended_no_throw_witness :
    (∃ it ∈ twoPersonInput.items, it.isShared = false)
      ∧ ∃ out : BillOutput, splitBill twoPersonInput = some out :=
  ⟨⟨BillItem.personal 10 "Coke" "Alice", by simp [twoPersonInput], rfl⟩,
    claim2_amended_no_throw twoPersonInput
      ⟨BillItem.personal 10 "Coke" "Alice", by simp [twoPersonInput], rfl⟩⟩

/-- C3. `calculateTip(s, p)` is `round(s * p / 100 * 10) / 10`: the raw
gratuity `s * p / 100` taken to the nearest multiple of `0.1` by
nearest-integer rounding of the value multiplied by ten. -/
theorem claim3_tip_formula (s p : ℚ) :
    calculateTip s p = ((⌊s * p / 100 * 10 + 1/2⌋ : ℤ) : ℚ) / 10
      ∧ |calculateTip s p - s * p / 100| ≤ 1/20 := by
  constructor
  · rfl
  · rw [calculateTip, round1, jsRound]
    have h1 : ((⌊s * p / 100 * 10 + 1/2⌋ : ℤ) : ℚ) ≤ s * p / 100 * 10 + 1/2 :=
      Int.floor_le _
    have h2 : s * p / 100 * 10 + 1/2 - 1 < ((⌊s * p / 100 * 10 + 1/2⌋ : ℤ) : ℚ) :=
      Int.sub_one_lt_floor _
    rw [abs_le]
    constructor <;> linarith

/-- C6. Reconciliation modifies at most the `amount` of the first
`PersonItem`: all names are unchanged, every entry after the first is
unchanged, and when the rounded difference between the rounded total and
the rounded sum of amounts is below `0.0001` in absolute value, nothing
changes at all. -/
theorem claim6_reconciliation_frame (t : ℚ) (items items' : List PersonItem)
    (h : adjustAmount t items = some items') :
    items'.map PersonItem.name = items.map PersonItem.name
      ∧ (∀ i, 1 ≤ i → items'[i]? = items[i]?)
      ∧ (|round1 (round1 t - round1 (items.foldl (fun s it => s + it.amount) 0))| < 1/10000
          → items' = items) :=
  ⟨adjustAmount_names h, adjustAmount_tail h, adjustAmount_of_small h⟩

/-- Witness for C6 on a concrete one-entry reconciliation. -/
theorem claim6_reconciliation_frame_witness :
    adjustAmount 10 [⟨"A", 5⟩] = some [⟨"A", 10⟩]
      ∧ ([(⟨"A", 10⟩ : PersonItem)].map PersonItem.name
            = [(⟨"A", 5⟩ : PersonItem)].map PersonItem.name
          ∧ (∀ i, 1 ≤ i →
              [(⟨"A", 10⟩ : PersonItem)][i]? = [(⟨"A", 5⟩ : PersonItem)][i]?)
          ∧ (|round1 (round1 10
                - round1 ([(⟨"A", 5⟩ : PersonItem)].foldl (fun s it => s + it.amount) 0))|
                  < 1/10000
              → [(⟨"A", 10⟩ : PersonItem)] = [(⟨"A", 5⟩ : PersonItem)])) :=
  ⟨adjustAmount_single_eval,
    claim6_reconciliation_frame 10 [⟨"A", 5⟩] [⟨"A", 10⟩] adjustAmount_single_eval⟩

/-- C7. `calculateTip` is non-decreasing in each argument over
non-negative inputs. -/
theorem claim7_tip_monotone (s s' p p' : ℚ)
    (hs : 0 ≤ s) (hs' : 0 ≤ s') (hp : 0 ≤ p) (hp' : 0 ≤ p') :
    (s ≤ s' → calculateTip s p ≤ calculateTip s' p)
      ∧ (p ≤ p' → calculateTip s p ≤ calculateTip s p') := by
  constructor
  · intro hss
    simp only [calculateTip]
    apply round1_mono
    exact (div_le_div_iff_of_pos_right (by norm_num)).mpr
      (mul_le_mul_of_nonneg_right hss hp)
  · intro hpp
    simp only [calculateTip]
    apply round1_mono
    exact (div_le_div_iff_of_pos_right (by norm_num)).mpr
      (mul_le_mul_of_nonneg_left hpp hs)

/-- Witness for C7 at `s = 1, s' = 2, p = 3, p' = 4`. -/
theorem claim7_tip_monotone_witness :
    (0:ℚ) ≤ 1 ∧ (0:ℚ) ≤ 2 ∧ (0:ℚ) ≤ 3 ∧ (0:ℚ) ≤ 4
      ∧ (((1:ℚ) ≤ 2 → calculateTip 1 3 ≤ calculateTip 2 3)
          ∧ ((3:ℚ) ≤ 4 → calculateTip 1 3 ≤ calculateTip 1 4)) :=
  ⟨by norm_num, by norm_num, by norm_num, by norm_num,
    claim7_tip_monotone 1 2 3 4 (by norm_num) (by norm_num) (by norm_num) (by norm_num)⟩

end BillSplit

namespace BillSplit

/-- C4. With at least one resolved participant, each participant's
pre-reconciliation amount is
`round((personal + sharedTotal/participantCount + personTip) * 10) / 10`,
with `personal` the participant's Personal price sum, `sharedTotal` the
sum of all Shared prices, `participantCount` the number of distinct
resolved participants, and
`personTip = totalTip * ((personal + share) / totalSub)` (`0` when
`totalSub` is exactly `0`). -/
theorem claim4_person_amount_formula (input : BillInput)
    (hcount : 0 < (scanPersons input.items).length)
    (pi : PersonItem) (hpi : pi ∈ calculateItems input.items input.tipPercentage) :
    pi.amount = specPersonAmount input.items input.tipPercentage pi.name := by
  rw [(mem_calculateItems hpi).2, calculatePersonAmount_eq_spec]

/-- Witness for C4: Alice's entry of the two-person scenario. -/
theorem claim4_person_amount_formula_witness :
    0 < (scanPersons twoPersonInput.items).length
      ∧ (⟨"Alice", 66⟩ : PersonItem) ∈ calculateItems twoPersonInput.items
          twoPersonInput.tipPercentage
      ∧ (⟨"Alice", 66⟩ : PersonItem).amount
          = specPersonAmount twoPersonInput.items twoPersonInput.tipPercentage
              (⟨"Alice", 66⟩ : PersonItem).name :=
  ⟨by simp [scanPersons, scanStep, twoPersonInput],
    by rw [calculateItems_twoPerson_eval]; simp,
    claim4_person_amount_formula twoPersonInput
      (by simp [scanPersons, scanStep, twoPersonInput]) ⟨"Alice", 66⟩
      (by rw [calculateItems_twoPerson_eval]; simp)⟩

/-- C5. The names in `output.items` are exactly the distinct `person`
values of the input's Personal items: deduplicated in first-appearance
order, with no duplicates, and containing a name exactly when some
Personal item carries it. -/
theorem claim5_participant_names (input : BillInput) (out : BillOutput)
    (hrun : splitBill input = some out) :
    out.items.map PersonItem.name = firstDedup (input.items.filterMap BillItem.personOf)
      ∧ (out.items.map PersonItem.name).Nodup
      ∧ ∀ x : String,
          x ∈ out.items.map PersonItem.name ↔ ∃ it ∈ input.items, it.personOf = some x := by
  obtain ⟨hadj, -⟩ := splitBill_some_inv hrun
  have hnames : out.items.map PersonItem.name = scanPersons input.items := by
    rw [adjustAmount_names hadj, calculateItems_names]
  rw [hnames, scanPersons_eq]
  refine ⟨rfl, firstDedup_nodup _, fun x => ?_⟩
  rw [mem_firstDedup]
  simp [List.mem_filterMap]

/-- Witness for C5 at the two-person scenario. -/
theorem claim5_participant_names_witness :
    splitBill twoPersonInput = some twoPersonOutput
      ∧ (twoPersonOutput.items.map PersonItem.name
            = firstDedup (twoPersonInput.items.filterMap BillItem.personOf)
          ∧ (twoPersonOutput.items.map PersonItem.name).Nodup
          ∧ ∀ x : String,
              x ∈ twoPersonOutput.items.map PersonItem.name
                ↔ ∃ it ∈ twoPersonInput.items, it.personOf = some x) :=
  ⟨splitBill_twoPerson_eval,
    claim5_participant_names twoPersonInput twoPersonOutput splitBill_twoPerson_eval⟩

end BillSplit

/-! ## String and date lemmas -/

namespace BillSplit

/-- A split never produces the empty chunk list. -/
theorem splitOnChar_ne_nil : ∀ (sep : Char) (cs : List Char), splitOnChar sep cs ≠ []
  | sep, [] => by simp [splitOnChar]
  | sep, c :: cs => by
    cases h : splitOnChar sep cs with
    | nil => simp [splitOnChar, h]
    | cons chunk rest =>
      simp only [splitOnChar, h]
      split <;> simp

/-- Splitting a separator-free list yields one chunk. -/
theorem splitOnChar_of_not_mem :
    ∀ {sep : Char} (cs : List Char), sep ∉ cs → splitOnChar sep cs = [cs]
  | _, [], _ => rfl
  | sep, c :: cs, h => by
    have h' : sep ∉ cs := fun hx => h (List.mem_cons_of_mem _ hx)
    have hc : ¬ c = sep := fun hc => h (by simp [hc])
    simp only [splitOnChar, splitOnChar_of_not_mem cs h', if_neg hc]

/-- Splitting peels off a separator-free prefix as one chunk. -/
theorem splitOnChar_append :
    ∀ {sep : Char} (xs ys : List Char), sep ∉ xs →
      splitOnChar sep (xs ++ sep :: ys) = xs :: splitOnChar sep ys
  | sep, [], ys, _ => by
    cases h : splitOnChar sep ys with
    | nil => exact absurd h (splitOnChar_ne_nil sep ys)
    | cons chunk rest => simp [splitOnChar, h]
  | sep, x :: xs, ys, h => by
    have h' : sep ∉ xs := fun hx => h (List.mem_cons_of_mem _ hx)
    have hx : ¬ x = sep := fun he => h (by simp [he])
    rw [List.cons_append, splitOnChar, splitOnChar_append xs ys h']
    simp [hx]

/-- Applying `Char.ofNat` to a digit code keeps that code. -/
theorem digitChar_toNat {r : ℕ} (h : r < 10) : (Char.ofNat (48 + r)).toNat = 48 + r := by
  interval_cases r <;> decide

/-- A rendered digit is a digit character. -/
theorem isDigitChar_digit {r : ℕ} (h : r < 10) : isDigitChar (Char.ofNat (48 + r)) = true := by
  interval_cases r <;> decide

/-- With enough fuel, every rendered character is a digit. -/
theorem renderNatAux_all_digits :
    ∀ (fuel n : ℕ), n < fuel → (renderNatAux fuel n).all isDigitChar = true
  | 0, _, h => by omega
  | fuel + 1, n, h => by
    rw [renderNatAux]
    split
    · rename_i h10
      simp [isDigitChar_digit h10]
    · rename_i h10
      push_neg at h10
      have hrec := renderNatAux_all_digits fuel (n / 10) (by omega)
      simp [List.all_append, hrec, isDigitChar_digit (show n % 10 < 10 by omega)]

/-- With enough fuel, the rendering is non-empty. -/
theorem renderNatAux_ne_nil : ∀ (fuel n : ℕ), n < fuel → renderNatAux fuel n ≠ []
  | 0, _, h => by omega
  | fuel + 1, n, _ => by
    rw [renderNatAux]
    split
    · simp
    · simp

/-- Folding the base-10 reconstruction over a rendering recovers the
number (relative to any accumulator). -/
theorem renderNatAux_foldl :
    ∀ (fuel n : ℕ), n < fuel → ∀ (a : ℕ),
      (renderNatAux fuel n).foldl (fun acc c => 10 * acc + (c.toNat - 48)) a
        = a * 10 ^ (renderNatAux fuel n).length + n
  | 0, _, h => by omega
  | fuel + 1, n, h => by
    intro a
    rw [renderNatAux]
    split
    · rename_i h10
      simp [digitChar_toNat h10]
      ring
    · rename_i h10
      push_neg at h10
      rw [List.foldl_append, renderNatAux_foldl fuel (n / 10) (by omega) a]
      simp only [List.foldl_cons, List.foldl_nil, List.length_append,
        List.length_cons, List.length_nil, digitChar_toNat (show n % 10 < 10 by omega)]
      have hmod : 48 + n % 10 - 48 = n % 10 := by omega
      have hrebuild : 10 * (n / 10) + n % 10 = n := by omega
      rw [hmod, pow_succ]
      calc 10 * (a * 10 ^ (renderNatAux fuel (n / 10)).length + n / 10) + n % 10
          = a * (10 ^ (renderNatAux fuel (n / 10)).length * 10)
            + (10 * (n / 10) + n % 10) := by ring
        _ = a * (10 ^ (renderNatAux fuel (n / 10)).length * 10) + n := by rw [hrebuild]

/-- Every rendered character is a digit. -/
theorem renderNat_all_digits (n : ℕ) : (renderNat n).all isDigitChar = true :=
  renderNatAux_all_digits _ _ (Nat.lt_succ_self n)

/-- Renderings are non-empty. -/
theorem renderNat_ne_nil (n : ℕ) : renderNat n ≠ [] :=
  renderNatAux_ne_nil _ _ (Nat.lt_succ_self n)

/-- Parsing a rendering returns the rendered number. -/
theorem parseDigits_renderNat (n : ℕ) : parseDigits (renderNat n) = some n := by
  rw [parseDigits, if_pos ⟨renderNat_ne_nil n, renderNat_all_digits n⟩]
  rw [renderNat, renderNatAux_foldl (n + 1) n (Nat.lt_succ_self n) 0]
  simp

/-- Parsing a zero-padded rendering also returns the number. -/
theorem parseDigits_pad2 (m : ℕ) : parseDigits (pad2 m) = some m := by
  rw [pad2]
  split
  · rw [parseDigits,
      if_pos ⟨by simp, by simp [List.all_cons, renderNat_all_digits, isDigitChar]⟩]
    rw [List.foldl_cons, show 10 * 0 + ('0'.toNat - 48) = 0 from by decide]
    rw [renderNat, renderNatAux_foldl (m + 1) m (Nat.lt_succ_self m) 0]
    simp
  · exact parseDigits_renderNat m

/-- Digit characters are not the separator or a sign. -/
theorem digit_ne_dash {c : Char} (h : isDigitChar c = true) : c ≠ '-' := by
  intro he
  subst he
  exact absurd h (by decide)

theorem digit_ne_plus {c : Char} (h : isDigitChar c = true) : c ≠ '+' := by
  intro he
  subst he
  exact absurd h (by decide)

/-- The separator does not occur in a rendering. -/
theorem dash_not_mem_renderNat (n : ℕ) : '-' ∉ renderNat n := by
  intro hmem
  exact digit_ne_dash (List.all_eq_true.mp (renderNat_all_digits n) _ hmem) rfl

/-- The separator does not occur in a zero-padded rendering. -/
theorem dash_not_mem_pad2 (m : ℕ) : '-' ∉ pad2 m := by
  rw [pad2]
  split
  · intro hmem
    rcases List.mem_cons.mp hmem with h | h
    · exact absurd h (by decide)
    · exact dash_not_mem_renderNat m h
  · exact dash_not_mem_renderNat m

/-- The modelled `Number()` coercion reads a zero-padded rendering back. -/
theorem jsStringToNumber_pad2 (m : ℕ) :
    jsStringToNumber (some (pad2 m)) = some (m : ℤ) := by
  have hall : (pad2 m).all isDigitChar = true := by
    rw [pad2]
    split
    · simp [List.all_cons, renderNat_all_digits, isDigitChar]
    · exact renderNat_all_digits m
  have hne : pad2 m ≠ [] := by
    rw [pad2]
    split
    · simp
    · exact renderNat_ne_nil m
  obtain ⟨c, cs, hcons⟩ : ∃ c cs, pad2 m = c :: cs := by
    cases hp : pad2 m with
    | nil => exact absurd hp hne
    | cons a b => exact ⟨a, b, rfl⟩
  have hc : isDigitChar c = true :=
    List.all_eq_true.mp hall c (by rw [hcons]; simp)
  rw [hcons, jsStringToNumber, if_neg (digit_ne_dash hc), if_neg (digit_ne_plus hc),
    ← hcons, parseDigits_pad2]
  rfl

/-- The modelled `String()` rendering of a natural number. -/
theorem jsNumberToString_natCast (m : ℕ) :
    jsNumberToString (some (m : ℤ)) = renderNat m := by
  rw [jsNumberToString, if_neg (not_lt.mpr (Int.natCast_nonneg m))]
  simp

end BillSplit

namespace BillSplit

/-- C8. On zero-padded `YYYY-MM-DD` input, `formatDate` splits on `-` and
re-renders month and day without leading zeros as `{year}年{month}月{day}日`;
in particular `"2024-03-21" ↦ "2024年3月21日"` and
`"2024-01-05" ↦ "2024年1月5日"`. -/
theorem claim8_format_date (y m d : ℕ) (hy1 : 1000 ≤ y) (hy2 : y ≤ 9999)
    (hm1 : 1 ≤ m) (hm2 : m ≤ 12) (hd1 : 1 ≤ d) (hd2 : d ≤ 31) :
    formatDate (mkDateString y m d)
        = String.mk (renderNat y ++ "年".toList ++ renderNat m ++ "月".toList
            ++ renderNat d ++ "日".toList)
      ∧ formatDate "2024-03-21" = "2024年3月21日"
      ∧ formatDate "2024-01-05" = "2024年1月5日" := by
  refine ⟨?_, by rfl, by rfl⟩
  have hlist : (mkDateString y m d).toList
      = renderNat y ++ '-' :: (pad2 m ++ '-' :: pad2 d) := by
    show renderNat y ++ '-' :: pad2 m ++ '-' :: pad2 d = _
    simp [List.append_assoc]
  show String.mk
      (((splitOnChar '-' (mkDateString y m d).toList)[0]?).getD []
        ++ "年".toList
        ++ jsNumberToString (jsStringToNumber (splitOnChar '-' (mkDateString y m d).toList)[1]?)
        ++ "月".toList
        ++ jsNumberToString (jsStringToNumber (splitOnChar '-' (mkDateString y m d).toList)[2]?)
        ++ "日".toList) = _
  rw [hlist, splitOnChar_append _ _ (dash_not_mem_renderNat y),
      splitOnChar_append _ _ (dash_not_mem_pad2 m),
      splitOnChar_of_not_mem _ (dash_not_mem_pad2 d)]
  simp only [List.getElem?_cons_zero, List.getElem?_cons_succ, Option.getD_some]
  rw [jsStringToNumber_pad2, jsNumberToString_natCast,
      jsStringToNumber_pad2, jsNumberToString_natCast]

/-- Witness for C8 at March 21st, 2024. -/
theorem claim8_format_date_witness :
    1000 ≤ 2024 ∧ 2024 ≤ 9999 ∧ 1 ≤ 3 ∧ 3 ≤ 12 ∧ 1 ≤ 21 ∧ 21 ≤ 31
      ∧ (formatDate (mkDateString 2024 3 21)
            = String.mk (renderNat 2024 ++ "年".toList ++ renderNat 3 ++ "月".toList
                ++ renderNat 21 ++ "日".toList)
          ∧ formatDate "2024-03-21" = "2024年3月21日"
          ∧ formatDate "2024-01-05" = "2024年1月5日") :=
  ⟨by norm_num, by norm_num, by norm_num, by norm_num, by norm_num, by norm_num,
    claim8_format_date 2024 3 21 (by norm_num) (by norm_num) (by norm_num) (by norm_num)
      (by norm_num) (by norm_num)⟩

/-- C9. `formatDate` is total on arbitrary strings: every input produces a
string of the shape `y年m月d日` without throwing, and non-numeric or
missing month/day parts are rendered literally as the text `NaN`. -/
theorem claim9_format_date_total :
    (∀ s : String, ∃ y m d : List Char,
        formatDate s = String.mk (y ++ "年".toList ++ m ++ "月".toList ++ d ++ "日".toList))
      ∧ formatDate "hello" = "hello年NaN月NaN日"
      ∧ formatDate "not-a-date" = "not年NaN月NaN日" :=
  ⟨fun s => ⟨_, _, _, rfl⟩, rfl, rfl⟩

end BillSplit
